import Mathlib

/-!
Verification of the WordleSolver engine (src/WordleSolver/wordle.py).

The Python program is shallowly embedded: words are lists of characters,
the per-letter record dictionary becomes a total function from characters
to records (only the 26 lowercase keys are ever consulted, mirroring the
dict created in Solver.__init__), floats become rationals, and every
mutating method becomes a function from solver state to solver state.
A method that can raise returns the state at the moment of the raise
together with an optional error, mirroring Python exception semantics
where mutations performed before the raise survive on the object.
-/

namespace WordleSolver

/-- A word is a list of characters (a Python string). -/
abbrev Word := List Char

/-- string.ascii_lowercase. -/
def asciiLowercase : List Char :=
  ['a', 'b', 'c', 'd', 'e', 'f', 'g', 'h', 'i', 'j', 'k', 'l', 'm',
   'n', 'o', 'p', 'q', 'r', 's', 't', 'u', 'v', 'w', 'x', 'y', 'z']

/-! ## Feedback oracle: Wordle.generate_response -/

/-- First pass of Wordle.generate_response: walk word and guess in
lockstep (the Python loop indexes both by the same i); on a match mark
EXACT and clear the scratch letter so it cannot be claimed again.
The Python code assumes both strings have length 5; extra characters of
either argument beyond the shorter one are dropped here. -/
def respondPass1 : Word → Word → List (Option Char) × List Char
  | wc :: ws, gc :: gs =>
    let r := respondPass1 ws gs
    if wc = gc then (none :: r.1, 'G' :: r.2) else (some wc :: r.1, '-' :: r.2)
  | _, _ => ([], [])

/-- letters[letters.index(l)] = None: blank out the first occurrence of
character c in the scratch list. -/
def removeFirst : List (Option Char) → Char → List (Option Char)
  | [], _ => []
  | x :: xs, c => if x = some c then none :: xs else x :: removeFirst xs c

/-- Second pass of Wordle.generate_response: for non-EXACT positions, if
the guessed letter is still present in the scratch list, mark PRESENT and
consume one occurrence. -/
def respondPass2 : List (Option Char) → Word → List Char → List Char
  | _, _, [] => []
  | _, [], _ => []
  | ls, gc :: gs, rc :: rs =>
    if rc = 'G' then rc :: respondPass2 ls gs rs
    else if some gc ∈ ls then 'Y' :: respondPass2 (removeFirst ls gc) gs rs
    else rc :: respondPass2 ls gs rs

/-- Wordle.generate_response: given a word and a guess, generate the
(success, response) pair. -/
def generate_response (word guess : Word) : Bool × List Char :=
  let p1 := respondPass1 word guess
  let resp := respondPass2 p1.1 guess p1.2
  (resp.count 'G' == 5, resp)

/-- Number of positions of the guess holding character c whose response
symbol is r (used both to state duplicate-letter safety and to embed the
per-character grouping of Solver.process_response). -/
def countResp (letters responses : List Char) (c r : Char) : Nat :=
  (letters.zip responses).countP (fun p => p.1 == c && p.2 == r)

/-- Number of positions of the guess holding character c that are marked
EXACT or PRESENT in the response. -/
def credit (guess resp : List Char) (c : Char) : Nat :=
  (guess.zip resp).countP (fun p => p.1 == c && (p.2 == 'G' || p.2 == 'Y'))

/-- Occurrences of `some c` left in a scratch list. -/
def countSome (ls : List (Option Char)) (c : Char) : Nat :=
  ls.count (some c)

/-! ## Solver data model -/

/-- Module error classes.  InvalidWordError and InvalidResponseError are
the MalformedInput family; InvalidSolverStateError covers both the
Contradiction (conflicting EXACT binding) and Unsatisfiable (empty filter
result) raises. -/
inductive WErr where
  | invalidWord
  | invalidResponse
  | invalidSolverState
deriving DecidableEq, Repr

/-- One per-letter record of Solver.letters (the Python dict value).
The float field freq is modelled as a rational. -/
structure LetterInfo where
  appears_at : List Nat
  does_not_appear_at : List Nat
  exact_count : Bool
  count : Nat
  freq : Rat
deriving DecidableEq, Repr

/-- The record Solver.__init__ installs for every letter. -/
def initLetterInfo : LetterInfo :=
  { appears_at := [], does_not_appear_at := [], exact_count := false,
    count := 0, freq := 0 }

/-- The mutable state of a Solver instance.  The letters dict (keyed by
the 26 lowercase letters) becomes a total function on Char; keys outside
a-z are never consulted nor updated by the embedded operations. -/
structure SolverState where
  words : List Word
  possible : List Word
  known_letters : List (Option Char)
  known_non_letters : List (List Char)
  letters : Char → LetterInfo

/-- Point update of the letters table: self.letters[c] mutation. -/
def updateLetter (L : Char → LetterInfo) (c : Char) (f : LetterInfo → LetterInfo) :
    Char → LetterInfo :=
  fun x => if x = c then f (L x) else L x

/-- The snapshot Solver.backup_state returns: possible words, the
known-letters board and the letter table (known_non_letters is absent). -/
structure Backup where
  possible : List Word
  known_letters : List (Option Char)
  letters : Char → LetterInfo

/-- Solver.backup_state. -/
def backup_state (s : SolverState) : Backup :=
  { possible := s.possible, known_letters := s.known_letters, letters := s.letters }

/-- Solver.restore_state: writes back exactly the three snapshotted
components; known_non_letters keeps whatever the failed transaction left. -/
def restore_state (s : SolverState) (b : Backup) : SolverState :=
  { s with possible := b.possible, known_letters := b.known_letters,
           letters := b.letters }

/-- self.known_non_letters[i].append(c). -/
def appendAt (l : List (List Char)) (i : Nat) (c : Char) : List (List Char) :=
  l.set i (l.getD i [] ++ [c])

/-- The position loop of Solver.process_response over the (letter,
response-symbol) pairs, starting at board index i.  A conflicting EXACT
binding raises InvalidSolverStateError with the mutations made so far
kept, as in Python. -/
def processPositions (s : SolverState) : Nat → List (Char × Char) →
    SolverState × Option WErr
  | _, [] => (s, none)
  | i, (c, r) :: rest =>
    if r = 'G' then
      match s.known_letters.getD i none with
      | some k =>
        if k = c then processPositions s (i + 1) rest
        else (s, some WErr.invalidSolverState)
      | none =>
        processPositions
          { s with known_letters := s.known_letters.set i (some c),
                   letters := updateLetter s.letters c
                     (fun info => { info with appears_at := info.appears_at ++ [i] }) }
          (i + 1) rest
    else
      processPositions
        { s with known_non_letters := appendAt s.known_non_letters i c,
                 letters := updateLetter s.letters c
                   (fun info => { info with
                     does_not_appear_at := info.does_not_appear_at ++ [i] }) }
        (i + 1) rest

/-- The distinct characters of the guess in first-occurrence order: the
iteration order of the response_by_char defaultdict. -/
def dedupFirst (l : List Char) : List Char :=
  l.foldl (fun acc c => if c ∈ acc then acc else acc ++ [c]) []

/-- The per-character count loop of Solver.process_response: for each
distinct guess character, count raises the lower bound by the number of
green and yellow hits, and exact_count is assigned (not or-ed) from the
presence of a grey hit. -/
def processCounts (s : SolverState) (letters responses : List Char) : SolverState :=
  { s with letters := ((dedupFirst letters).foldl (fun L c =>
      updateLetter L c (fun info =>
        { info with
          count := max info.count
            (countResp letters responses c 'G' + countResp letters responses c 'Y'),
          exact_count := decide (0 < countResp letters responses c '-') }))
      s.letters) }

/-- Solver.process_response: validate, then run the position loop and the
count loop.  Validation happens before any mutation. -/
def process_response (s : SolverState) (word response : List Char) :
    SolverState × Option WErr :=
  let letters := word.map Char.toLower
  if letters.length ≠ 5 then (s, some WErr.invalidWord)
  else if letters.any (fun c => !(decide (c ∈ asciiLowercase))) then
    (s, some WErr.invalidWord)
  else
    let responses := response.map Char.toUpper
    if responses.length ≠ 5 then (s, some WErr.invalidResponse)
    else if responses.any (fun r => !(decide (r ∈ ['G', 'Y', '-']))) then
      (s, some WErr.invalidResponse)
    else
      let pp := processPositions s 0 (letters.zip responses)
      match pp.2 with
      | some e => (pp.1, some e)
      | none => (processCounts pp.1 letters responses, none)

/-- The conjunction of the filters Solver.update_possible_words builds for
one letter record (index-equality, index-inequality and count filters). -/
def letterOk (info : LetterInfo) (c : Char) (w : Word) : Bool :=
  info.appears_at.all (fun i => decide (w.getD i ' ' = c)) &&
  info.does_not_appear_at.all (fun i => !(decide (w.getD i ' ' = c))) &&
  (if info.count = 0 && !info.exact_count then true
   else if info.exact_count then decide (w.count c = info.count)
   else decide (info.count ≤ w.count c))

/-- A word passes every filter derived from the letter table (the dict
iterates over exactly the 26 lowercase keys). -/
def wordPasses (L : Char → LetterInfo) (w : Word) : Bool :=
  asciiLowercase.all (fun c => letterOk (L c) c w)

/-- One index of the secondary inference pass of
Solver.update_possible_words: if the board slot is unresolved and every
possible word agrees on the letter there, record it as EXACT knowledge. -/
def inferenceStep (s : SolverState) (i : Nat) : SolverState :=
  match s.known_letters.getD i none with
  | some _ => s
  | none =>
    let c := (s.possible.headD []).getD i ' '
    if s.possible.all (fun w => decide (w.getD i ' ' = c)) then
      { s with
        letters := updateLetter s.letters c (fun info =>
          { info with appears_at := info.appears_at ++ [i],
                      count := max info.count (info.appears_at ++ [i]).length }),
        known_letters := s.known_letters.set i (some c) }
    else s

/-- The full inference pass over the five board positions. -/
def inferencePass (s : SolverState) : SolverState :=
  (List.range 5).foldl inferenceStep s

/-- Solver.update_possible_words: filter the possible list, raise
InvalidSolverStateError when it becomes empty (the emptied list stays on
the state, as in Python), and run the inference pass when more than one
word is left. -/
def update_possible_words (s : SolverState) : SolverState × Option WErr :=
  let possible := s.possible.filter (fun w => wordPasses s.letters w)
  let s1 := { s with possible := possible }
  if possible.length = 0 then (s1, some WErr.invalidSolverState)
  else if 1 < possible.length then (inferencePass s1, none)
  else (s1, none)

/-- The fraction computed for one letter by Solver.update_letter_freq:
words of the possible list holding strictly more copies of the letter
than already proven, over the size of the possible list. -/
def freqFor (possible : List Word) (info : LetterInfo) (c : Char) : Rat :=
  ((possible.countP (fun w => decide (info.count < w.count c)) : Nat) : Rat) /
    ((possible.length : Nat) : Rat)

/-- Solver.update_letter_freq: recompute freq for every letter. -/
def update_letter_freq (s : SolverState) : SolverState :=
  { s with letters := (asciiLowercase.foldl (fun L c =>
      updateLetter L c (fun info => { info with freq := freqFor s.possible info c }))
      s.letters) }

/-- Solver.handle_response: snapshot, run the transaction, and on
InvalidSolverStateError restore the snapshot before re-raising; other
WordleErrors propagate without restore. -/
def handle_response (s : SolverState) (word response : List Char) :
    SolverState × Option WErr :=
  let backup := backup_state s
  let r1 := process_response s word response
  match r1.2 with
  | some WErr.invalidSolverState =>
    (restore_state r1.1 backup, some WErr.invalidSolverState)
  | some e => (r1.1, some e)
  | none =>
    let r2 := update_possible_words r1.1
    match r2.2 with
    | some WErr.invalidSolverState =>
      (restore_state r2.1 backup, some WErr.invalidSolverState)
    | some e => (r2.1, some e)
    | none => (update_letter_freq r2.1, none)

/-- Solver.__init__ from an already-loaded word list (word-list loading is
an external collaborator): possible starts as the full dictionary, the
board is unresolved, every letter has the initial record, and freq is
populated once. -/
def initSolver (words : List Word) : SolverState :=
  update_letter_freq
    { words := words, possible := words,
      known_letters := List.replicate 5 none,
      known_non_letters := List.replicate 5 [],
      letters := fun _ => initLetterInfo }

/-- Wordle.guess_limit. -/
def guess_limit : Nat := 6

/-- Solver.word_weight: informativeness of a candidate guess, summing
freq over distinct letters that could still teach a count, plus freq per
position whose status for that letter is unresolved. -/
def word_weight (L : Char → LetterInfo) (word : Word) : Rat :=
  let countPart := (dedupFirst word).foldl (fun wt c =>
    let info := L c
    if !info.exact_count && decide (info.count < word.count c) then wt + info.freq
    else wt) 0
  (List.range word.length).foldl (fun wt i =>
    let c := word.getD i ' '
    let info := L c
    if !(decide (i ∈ info.appears_at)) && !(decide (i ∈ info.does_not_appear_at)) then
      wt + info.freq
    else wt) countPart

/-- max(iterable, key=...): Python keeps the first element whose key is
maximal, replacing only on a strictly greater key. -/
def maxByFreq (wfreq : Word → Rat) : List Word → Word
  | [] => []
  | w :: ws => ws.foldl (fun best x => if wfreq best < wfreq x then x else best) w

/-- max of a list of weights (Python max over dict values). -/
def maxWeight : List Rat → Rat
  | [] => 0
  | x :: xs => xs.foldl max x

/-- Solver.generate_guess.  The external frequency collaborator
(wordle.word_freq) and random.choice are passed in as parameters wfreq
and pick; the phase structure is the code's if/elif chain. -/
def generate_guess (wfreq : Word → Rat) (pick : List Word → Word)
    (s : SolverState) (guess_num : Nat) : Word :=
  if s.possible.length = 1 then s.possible.headD []
  else if (s.possible.length : Int) ≤ (guess_limit : Int) - (guess_num : Int) then
    maxByFreq wfreq s.possible
  else if guess_num < guess_limit then
    let weights := s.words.map (fun w => (w, word_weight s.letters w))
    let mw := maxWeight (weights.map (fun p => p.2))
    if mw = 0 then pick s.possible
    else pick ((weights.filter (fun p => decide (p.2 = mw))).map (fun p => p.1))
  else maxByFreq wfreq s.possible

/-! ## Lemmas about the feedback oracle -/

theorem respondPass1_len (ws : Word) : ∀ gs : Word, ws.length = gs.length →
    (respondPass1 ws gs).1.length = ws.length ∧
    (respondPass1 ws gs).2.length = ws.length := by
  induction ws with
  | nil => intro gs h; cases gs <;> simp [respondPass1] at h ⊢
  | cons w ws ih =>
    intro gs h
    cases gs with
    | nil => simp at h
    | cons g gs =>
      simp only [List.length_cons, Nat.succ.injEq] at h
      have := ih gs h
      by_cases hwg : w = g <;> simp [respondPass1, hwg, this.1, this.2]

theorem respondPass1_G (ws : Word) : ∀ gs : Word, ws.length = gs.length →
    ∀ i, i < ws.length →
    ((respondPass1 ws gs).2.getD i ' ' = 'G' ↔ ws.getD i ' ' = gs.getD i ' ') := by
  induction ws with
  | nil => intro gs h i hi; simp at hi
  | cons w ws ih =>
    intro gs h i hi
    cases gs with
    | nil => simp at h
    | cons g gs =>
      simp only [List.length_cons, Nat.succ.injEq] at h
      cases i with
      | zero =>
        by_cases hwg : w = g <;> simp [respondPass1, hwg]
      | succ i =>
        simp only [List.length_cons, Nat.succ_lt_succ_iff] at hi
        by_cases hwg : w = g <;>
          simpa [respondPass1, hwg] using ih gs h i hi

theorem respondPass2_G (rs : List Char) : ∀ gs : Word, ∀ ls : List (Option Char),
    gs.length = rs.length → ∀ i, i < rs.length →
    ((respondPass2 ls gs rs).getD i ' ' = 'G' ↔ rs.getD i ' ' = 'G') := by
  induction rs with
  | nil => intro gs ls h i hi; simp at hi
  | cons r rs ih =>
    intro gs ls h i hi
    cases gs with
    | nil => simp at h
    | cons g gs =>
      simp only [List.length_cons, Nat.succ.injEq] at h
      by_cases hrG : r = 'G'
      · cases i with
        | zero => simp [respondPass2, hrG]
        | succ i =>
          simp only [List.length_cons, Nat.succ_lt_succ_iff] at hi
          simpa [respondPass2, hrG] using ih gs ls h i hi
      · have hYG : ('Y' : Char) ≠ 'G' := by decide
        by_cases hmem : some g ∈ ls
        · cases i with
          | zero => simp [respondPass2, hrG, hmem, hYG]
          | succ i =>
            simp only [List.length_cons, Nat.succ_lt_succ_iff] at hi
            simpa [respondPass2, hrG, hmem] using ih gs (removeFirst ls g) h i hi
        · cases i with
          | zero => simp [respondPass2, hrG, hmem]
          | succ i =>
            simp only [List.length_cons, Nat.succ_lt_succ_iff] at hi
            simpa [respondPass2, hrG, hmem] using ih gs ls h i hi

theorem credit_cons (g : Char) (gs : Word) (r : Char) (rs : List Char) (c : Char) :
    credit (g :: gs) (r :: rs) c =
      (if g = c ∧ (r = 'G' ∨ r = 'Y') then 1 else 0) + credit gs rs c := by
  simp only [credit, List.zip_cons_cons, List.countP_cons]
  by_cases h1 : g = c <;> by_cases h2 : r = 'G' <;> by_cases h3 : r = 'Y' <;>
    simp [h1, h2, h3] <;> omega

theorem countSome_cons (x : Option Char) (xs : List (Option Char)) (c : Char) :
    countSome (x :: xs) c = (if x = some c then 1 else 0) + countSome xs c := by
  by_cases h : x = some c <;> simp [countSome, List.count_cons, h] <;> omega

theorem removeFirst_countSome (g c : Char) : ∀ ls : List (Option Char),
    some g ∈ ls →
    countSome (removeFirst ls g) c + (if g = c then 1 else 0) = countSome ls c := by
  intro ls
  induction ls with
  | nil => intro h; simp at h
  | cons x xs ih =>
    intro h
    by_cases hx : x = some g
    · subst hx
      rw [removeFirst, if_pos rfl, countSome_cons, countSome_cons]
      by_cases hgc : g = c
      · subst hgc
        have h1 : (none : Option Char) ≠ some g := by simp
        rw [if_neg h1, if_pos rfl, if_pos rfl]
        omega
      · have h1 : (none : Option Char) ≠ some c := by simp
        have h2 : some g ≠ some c := by simpa using hgc
        rw [if_neg h1, if_neg hgc, if_neg h2]
        omega
    · have hmem : some g ∈ xs := by
        rcases List.mem_cons.mp h with h' | h'
        · exact absurd h'.symm hx
        · exact h'
      rw [removeFirst, if_neg hx, countSome_cons, countSome_cons]
      have := ih hmem
      omega

theorem respondPass1_conserve (ws : Word) : ∀ gs : Word, ws.length = gs.length →
    ∀ c, countSome (respondPass1 ws gs).1 c + credit gs (respondPass1 ws gs).2 c =
      ws.count c := by
  induction ws with
  | nil =>
    intro gs h c; cases gs <;> simp_all [respondPass1, countSome, credit]
  | cons w ws ih =>
    intro gs h c
    cases gs with
    | nil => simp at h
    | cons g gs =>
      simp only [List.length_cons, Nat.succ.injEq] at h
      have hc := ih gs h c
      have hcount : (w :: ws).count c = ws.count c + (if w = c then 1 else 0) := by
        by_cases hw : w = c <;> simp [List.count_cons, hw]
      by_cases hwg : w = g
      · simp only [respondPass1, if_pos hwg, countSome_cons, credit_cons]
        subst hwg
        by_cases hwc : w = c <;> simp [hwc] at hcount ⊢ <;> omega
      · simp only [respondPass1, if_neg hwg, countSome_cons, credit_cons]
        have : ¬(g = c ∧ (('-' : Char) = 'G' ∨ ('-' : Char) = 'Y')) := by
          rintro ⟨-, h' | h'⟩ <;> simp at h'
        rw [if_neg this]
        by_cases hwc : w = c <;> simp [hwc, Option.some.injEq] at hcount ⊢ <;> omega

theorem respondPass2_credit_le (rs : List Char) : ∀ gs : Word,
    ∀ ls : List (Option Char), ∀ c,
    credit gs (respondPass2 ls gs rs) c ≤ credit gs rs c + countSome ls c := by
  induction rs with
  | nil => intro gs ls c; cases gs <;> simp [respondPass2, credit]
  | cons r rs ih =>
    intro gs ls c
    cases gs with
    | nil => simp [respondPass2, credit]
    | cons g gs =>
      by_cases hrG : r = 'G'
      · subst hrG
        rw [respondPass2, if_pos rfl, credit_cons, credit_cons]
        have := ih gs ls c
        omega
      · by_cases hmem : some g ∈ ls
        · rw [respondPass2, if_neg hrG, if_pos hmem, credit_cons, credit_cons]
          have h1 := ih gs (removeFirst ls g) c
          have h2 := removeFirst_countSome g c ls hmem
          have hY : (('Y' : Char) = 'G' ∨ ('Y' : Char) = 'Y') := by decide
          by_cases hgc : g = c
          · subst hgc
            rw [if_pos rfl] at h2
            rw [if_pos ⟨rfl, hY⟩]
            by_cases hr : r = 'G' ∨ r = 'Y'
            · rw [if_pos ⟨rfl, hr⟩]; omega
            · rw [if_neg (by tauto)]; omega
          · rw [if_neg hgc] at h2
            rw [if_neg (by tauto), if_neg (by tauto)]
            omega
        · rw [respondPass2, if_neg hrG, if_neg hmem, credit_cons, credit_cons]
          have := ih gs ls c
          omega

/-- Claim C2: generate_response marks EXACT exactly at the positions where
guess and secret agree, and for every letter the EXACT+PRESENT credits
never exceed its occurrence count in the secret. -/
theorem generate_response_exact_and_duplicate_safe (S G : Word)
    (hS : S.length = 5) (hG : G.length = 5)
    (hSl : ∀ c ∈ S, c ∈ asciiLowercase) (hGl : ∀ c ∈ G, c ∈ asciiLowercase) :
    (∀ i, i < 5 →
      ((generate_response S G).2.getD i ' ' = 'G' ↔ G.getD i ' ' = S.getD i ' ')) ∧
    (∀ c, credit G (generate_response S G).2 c ≤ S.count c) := by
  have hlen : S.length = G.length := by omega
  have hp1 := respondPass1_len S G hlen
  constructor
  · intro i hi
    have h2 := respondPass2_G (respondPass1 S G).2 G (respondPass1 S G).1
      (by omega) i (by omega)
    have h1 := respondPass1_G S G hlen i (by omega)
    simp only [generate_response]
    rw [h2, h1]
    exact eq_comm
  · intro c
    have h4 := respondPass2_credit_le (respondPass1 S G).2 G (respondPass1 S G).1 c
    have h3 := respondPass1_conserve S G hlen c
    simp only [generate_response]
    omega

/-- Witness for Claim C2 at secret and guess abcde. -/
theorem generate_response_exact_and_duplicate_safe_witness :
    (∀ i, i < 5 →
      ((generate_response ['a', 'b', 'c', 'd', 'e'] ['a', 'b', 'c', 'd', 'e']).2.getD i ' ' = 'G' ↔
        (['a', 'b', 'c', 'd', 'e'] : Word).getD i ' ' =
          (['a', 'b', 'c', 'd', 'e'] : Word).getD i ' ')) ∧
    (∀ c, credit ['a', 'b', 'c', 'd', 'e']
      (generate_response ['a', 'b', 'c', 'd', 'e'] ['a', 'b', 'c', 'd', 'e']).2 c ≤
      (['a', 'b', 'c', 'd', 'e'] : Word).count c) :=
  generate_response_exact_and_duplicate_safe ['a', 'b', 'c', 'd', 'e']
    ['a', 'b', 'c', 'd', 'e'] (by decide) (by decide) (by decide) (by decide)

/-! ## Generic lemmas about the letter-table folds -/

theorem dedupFirst_aux_mem (x : Char) : ∀ (l acc : List Char),
    (x ∈ l.foldl (fun acc c => if c ∈ acc then acc else acc ++ [c]) acc) ↔
      x ∈ acc ∨ x ∈ l := by
  intro l
  induction l with
  | nil => intro acc; simp
  | cons c l ih =>
    intro acc
    by_cases hc : c ∈ acc
    · simp only [List.foldl_cons, if_pos hc, ih, List.mem_cons]
      constructor
      · rintro (h | h)
        · exact Or.inl h
        · exact Or.inr (Or.inr h)
      · rintro (h | h | h)
        · exact Or.inl h
        · exact Or.inl (h ▸ hc)
        · exact Or.inr h
    · simp only [List.foldl_cons, if_neg hc, ih, List.mem_append,
        List.mem_singleton, List.mem_cons]
      tauto

theorem dedupFirst_aux_nodup : ∀ (l acc : List Char), acc.Nodup →
    (l.foldl (fun acc c => if c ∈ acc then acc else acc ++ [c]) acc).Nodup := by
  intro l
  induction l with
  | nil => intro acc h; simpa using h
  | cons c l ih =>
    intro acc h
    by_cases hc : c ∈ acc
    · simpa only [List.foldl_cons, if_pos hc] using ih acc h
    · rw [List.foldl_cons, if_neg hc]
      exact ih (acc ++ [c]) (by simp [List.nodup_append, h, hc])

theorem dedupFirst_mem (x : Char) (l : List Char) : x ∈ dedupFirst l ↔ x ∈ l := by
  simpa using dedupFirst_aux_mem x l []

theorem dedupFirst_nodup (l : List Char) : (dedupFirst l).Nodup :=
  dedupFirst_aux_nodup l [] List.nodup_nil

theorem foldl_updateLetter_notMem (F : Char → LetterInfo → LetterInfo) :
    ∀ (cs : List Char) (L : Char → LetterInfo) (c : Char), c ∉ cs →
    (cs.foldl (fun L x => updateLetter L x (F x)) L) c = L c := by
  intro cs
  induction cs with
  | nil => intro L c _; rfl
  | cons d cs ih =>
    intro L c hc
    have hcd : c ≠ d := fun h => hc (h ▸ List.mem_cons_self d cs)
    have hrec := ih (updateLetter L d (F d)) c (fun h => hc (List.mem_cons_of_mem d h))
    simpa [updateLetter, hcd] using hrec

theorem foldl_updateLetter (F : Char → LetterInfo → LetterInfo) :
    ∀ (cs : List Char) (L : Char → LetterInfo) (c : Char), cs.Nodup →
    (cs.foldl (fun L x => updateLetter L x (F x)) L) c =
      if c ∈ cs then F c (L c) else L c := by
  intro cs
  induction cs with
  | nil => intro L c _; rfl
  | cons d cs ih =>
    intro L c hnd
    rcases List.nodup_cons.mp hnd with ⟨hd, hnd'⟩
    by_cases hcd : c = d
    · subst hcd
      rw [List.foldl_cons, foldl_updateLetter_notMem F cs _ c hd]
      simp [updateLetter, List.mem_cons]
    · rw [List.foldl_cons, ih _ c hnd']
      by_cases hc : c ∈ cs <;> simp [updateLetter, hcd, hc, List.mem_cons]

/-! ## Frame lemmas for the transaction steps -/

theorem processPositions_frame : ∀ (ps : List (Char × Char)) (s : SolverState) (i : Nat),
    (processPositions s i ps).1.possible = s.possible ∧
    (processPositions s i ps).1.words = s.words ∧
    (∀ c, ((processPositions s i ps).1.letters c).count = (s.letters c).count ∧
      ((processPositions s i ps).1.letters c).exact_count = (s.letters c).exact_count) := by
  intro ps
  induction ps with
  | nil => intro s i; exact ⟨rfl, rfl, fun c => ⟨rfl, rfl⟩⟩
  | cons p rest ih =>
    intro s i
    obtain ⟨c, r⟩ := p
    simp only [processPositions]
    by_cases hr : r = 'G'
    · rw [if_pos hr]
      split
      · rename_i k hk
        by_cases hkc : k = c
        · rw [if_pos hkc]; exact ih s (i + 1)
        · rw [if_neg hkc]; exact ⟨rfl, rfl, fun x => ⟨rfl, rfl⟩⟩
      · rename_i hk
        have h := ih { s with
          known_letters := s.known_letters.set i (some c),
          letters := updateLetter s.letters c
            (fun info => { info with appears_at := info.appears_at ++ [i] }) } (i + 1)
        refine ⟨h.1, h.2.1, fun x => ?_⟩
        rcases h.2.2 x with ⟨h1, h2⟩
        rw [h1, h2]
        by_cases hxc : x = c <;> simp [updateLetter, hxc]
    · rw [if_neg hr]
      have h := ih { s with
        known_non_letters := appendAt s.known_non_letters i c,
        letters := updateLetter s.letters c
          (fun info => { info with
            does_not_appear_at := info.does_not_appear_at ++ [i] }) } (i + 1)
      refine ⟨h.1, h.2.1, fun x => ?_⟩
      rcases h.2.2 x with ⟨h1, h2⟩
      rw [h1, h2]
      by_cases hxc : x = c <;> simp [updateLetter, hxc]

theorem processPositions_err : ∀ (ps : List (Char × Char)) (s : SolverState) (i : Nat),
    (processPositions s i ps).2 = none ∨
    (processPositions s i ps).2 = some WErr.invalidSolverState := by
  intro ps
  induction ps with
  | nil => intro s i; exact Or.inl rfl
  | cons p rest ih =>
    intro s i
    obtain ⟨c, r⟩ := p
    simp only [processPositions]
    by_cases hr : r = 'G'
    · rw [if_pos hr]
      split
      · rename_i k hk
        by_cases hkc : k = c
        · rw [if_pos hkc]; exact ih s (i + 1)
        · rw [if_neg hkc]; exact Or.inr rfl
      · exact ih _ (i + 1)
    · rw [if_neg hr]
      exact ih _ (i + 1)

theorem processCounts_letters (s : SolverState) (L R : List Char) (c : Char) :
    (processCounts s L R).letters c =
      if c ∈ dedupFirst L then
        { s.letters c with
          count := max (s.letters c).count
            (countResp L R c 'G' + countResp L R c 'Y'),
          exact_count := decide (0 < countResp L R c '-') }
      else s.letters c :=
  foldl_updateLetter
    (fun c info =>
      { info with
        count := max info.count (countResp L R c 'G' + countResp L R c 'Y'),
        exact_count := decide (0 < countResp L R c '-') })
    (dedupFirst L) s.letters c (dedupFirst_nodup L)

theorem asciiLowercase_nodup : asciiLowercase.Nodup := by decide

theorem update_letter_freq_letters (s : SolverState) (c : Char) :
    (update_letter_freq s).letters c =
      if c ∈ asciiLowercase then
        { s.letters c with freq := freqFor s.possible (s.letters c) c }
      else s.letters c :=
  foldl_updateLetter (fun c info => { info with freq := freqFor s.possible info c })
    asciiLowercase s.letters c asciiLowercase_nodup

/-- process_response classified by the validity of its two inputs: on
malformed input it returns the untouched state with the matching error,
and on well-formed input it can only succeed or report an invalid solver
state. -/
theorem process_response_cases (s : SolverState) (w r : List Char) :
    (¬((w.map Char.toLower).length = 5 ∧
        (∀ c ∈ w.map Char.toLower, c ∈ asciiLowercase) ∧
        (r.map Char.toUpper).length = 5 ∧
        (∀ x ∈ r.map Char.toUpper, x ∈ ['G', 'Y', '-'])) ∧
      (process_response s w r).1 = s ∧
      ((process_response s w r).2 = some WErr.invalidWord ∨
        (process_response s w r).2 = some WErr.invalidResponse)) ∨
    (((w.map Char.toLower).length = 5 ∧
        (∀ c ∈ w.map Char.toLower, c ∈ asciiLowercase) ∧
        (r.map Char.toUpper).length = 5 ∧
        (∀ x ∈ r.map Char.toUpper, x ∈ ['G', 'Y', '-'])) ∧
      ((process_response s w r).2 = none ∨
        (process_response s w r).2 = some WErr.invalidSolverState)) := by
  simp only [process_response]
  split
  · rename_i hlen
    exact Or.inl ⟨by tauto, rfl, Or.inl rfl⟩
  · rename_i hlen
    split
    · rename_i hany
      have hnall : ¬(∀ c ∈ w.map Char.toLower, c ∈ asciiLowercase) := by
        simp only [List.any_eq_true, Bool.not_eq_true',
          decide_eq_false_iff_not] at hany
        rcases hany with ⟨x, hx, hx'⟩
        intro hall
        exact hx' (hall x hx)
      exact Or.inl ⟨by tauto, rfl, Or.inl rfl⟩
    · rename_i hany
      split
      · rename_i hrlen
        exact Or.inl ⟨by tauto, rfl, Or.inr rfl⟩
      · rename_i hrlen
        split
        · rename_i hrany
          have hnall : ¬(∀ x ∈ r.map Char.toUpper, x ∈ ['G', 'Y', '-']) := by
            simp only [List.any_eq_true, Bool.not_eq_true',
              decide_eq_false_iff_not] at hrany
            rcases hrany with ⟨x, hx, hx'⟩
            intro hall
            exact hx' (hall x hx)
          exact Or.inl ⟨by tauto, rfl, Or.inr rfl⟩
        · rename_i hrany
          right
          have hall2 : ∀ c ∈ w.map Char.toLower, c ∈ asciiLowercase := by
            intro c hc
            by_contra hcn
            exact hany (List.any_eq_true.mpr ⟨c, hc, by simp [hcn]⟩)
          have hall4 : ∀ x ∈ r.map Char.toUpper, x ∈ ['G', 'Y', '-'] := by
            intro x hx
            by_contra hxn
            exact hrany (List.any_eq_true.mpr ⟨x, hx, by simp [hxn]⟩)
          refine ⟨⟨by omega, hall2, by omega, hall4⟩, ?_⟩
          rcases processPositions_err
              ((w.map Char.toLower).zip (r.map Char.toUpper)) s 0 with h | h
          · simp [h]
          · simp [h]

theorem process_response_frame (s : SolverState) (w r : List Char) :
    (process_response s w r).1.possible = s.possible ∧
    (process_response s w r).1.words = s.words := by
  simp only [process_response]
  split
  · exact ⟨rfl, rfl⟩
  · split
    · exact ⟨rfl, rfl⟩
    · split
      · exact ⟨rfl, rfl⟩
      · split
        · exact ⟨rfl, rfl⟩
        · have h := processPositions_frame
            ((w.map Char.toLower).zip (r.map Char.toUpper)) s 0
          split
          · exact ⟨h.1, h.2.1⟩
          · exact ⟨h.1, h.2.1⟩

theorem inferenceStep_frame (s : SolverState) (i : Nat) :
    (inferenceStep s i).possible = s.possible ∧
    (inferenceStep s i).words = s.words ∧
    (inferenceStep s i).known_non_letters = s.known_non_letters ∧
    (∀ c, ((inferenceStep s i).letters c).exact_count = (s.letters c).exact_count ∧
      ((inferenceStep s i).letters c).does_not_appear_at =
        (s.letters c).does_not_appear_at ∧
      (s.letters c).count ≤ ((inferenceStep s i).letters c).count) := by
  simp only [inferenceStep]
  split
  · exact ⟨rfl, rfl, rfl, fun c => ⟨rfl, rfl, le_refl _⟩⟩
  · split
    · refine ⟨rfl, rfl, rfl, fun c => ?_⟩
      simp only [updateLetter]
      by_cases hc : c = (s.possible.headD []).getD i ' '
      · rw [if_pos hc]
        exact ⟨rfl, rfl, Nat.le_max_left _ _⟩
      · rw [if_neg hc]
        exact ⟨rfl, rfl, le_refl _⟩
    · exact ⟨rfl, rfl, rfl, fun c => ⟨rfl, rfl, le_refl _⟩⟩

theorem inferencePass_frame (s : SolverState) :
    (inferencePass s).possible = s.possible ∧
    (inferencePass s).words = s.words ∧
    (inferencePass s).known_non_letters = s.known_non_letters ∧
    (∀ c, ((inferencePass s).letters c).exact_count = (s.letters c).exact_count ∧
      (s.letters c).count ≤ ((inferencePass s).letters c).count) := by
  have main : ∀ (l : List Nat) (t : SolverState),
      (l.foldl inferenceStep t).possible = t.possible ∧
      (l.foldl inferenceStep t).words = t.words ∧
      (l.foldl inferenceStep t).known_non_letters = t.known_non_letters ∧
      (∀ c, ((l.foldl inferenceStep t).letters c).exact_count =
          (t.letters c).exact_count ∧
        (t.letters c).count ≤ ((l.foldl inferenceStep t).letters c).count) := by
    intro l
    induction l with
    | nil => intro t; exact ⟨rfl, rfl, rfl, fun c => ⟨rfl, le_refl _⟩⟩
    | cons j l ih =>
      intro t
      have h1 := inferenceStep_frame t j
      have h2 := ih (inferenceStep t j)
      refine ⟨h2.1.trans h1.1, h2.2.1.trans h1.2.1, h2.2.2.1.trans h1.2.2.1,
        fun c => ?_⟩
      exact ⟨(h2.2.2.2 c).1.trans (h1.2.2.2 c).1,
        le_trans (h1.2.2.2 c).2.2 (h2.2.2.2 c).2⟩
  exact main (List.range 5) s

theorem update_possible_words_possible (s : SolverState) :
    (update_possible_words s).1.possible =
      s.possible.filter (fun w => wordPasses s.letters w) := by
  simp only [update_possible_words]
  split
  · rfl
  · split
    · exact (inferencePass_frame _).1
    · rfl

theorem update_possible_words_err (s : SolverState) :
    ((update_possible_words s).2 = none ↔
      s.possible.filter (fun w => wordPasses s.letters w) ≠ []) ∧
    ((update_possible_words s).2 = none ∨
      (update_possible_words s).2 = some WErr.invalidSolverState) := by
  simp only [update_possible_words]
  split
  · rename_i h
    constructor
    · simp only [List.length_eq_zero] at h
      simp [h]
    · exact Or.inr rfl
  · rename_i h
    constructor
    · constructor
      · intro _
        intro hne
        rw [hne] at h
        simp at h
      · intro _
        split <;> rfl
    · split
      · exact Or.inl rfl
      · exact Or.inl rfl

/-- Claim C1: if handle_response raises InvalidSolverStateError (a
Contradiction or an Unsatisfiable round), the possible-word set, the
letter table and the known-letters board are restored to their pre-call
values. -/
theorem handle_response_rollback (s : SolverState) (w r : List Char)
    (h : (handle_response s w r).2 = some WErr.invalidSolverState) :
    (handle_response s w r).1.possible = s.possible ∧
    (handle_response s w r).1.known_letters = s.known_letters ∧
    (handle_response s w r).1.letters = s.letters := by
  rcases hpr : (process_response s w r).2 with _ | e
  · rcases hupw : (update_possible_words (process_response s w r).1).2 with _ | e2
    · simp only [handle_response, hpr, hupw] at h
      simp at h
    · cases e2 with
      | invalidWord =>
        simp only [handle_response, hpr, hupw] at h
        simp at h
      | invalidResponse =>
        simp only [handle_response, hpr, hupw] at h
        simp at h
      | invalidSolverState =>
        simp only [handle_response, hpr, hupw]
        exact ⟨rfl, rfl, rfl⟩
  · cases e with
    | invalidWord =>
      simp only [handle_response, hpr] at h
      simp at h
    | invalidResponse =>
      simp only [handle_response, hpr] at h
      simp at h
    | invalidSolverState =>
      simp only [handle_response, hpr]
      exact ⟨rfl, rfl, rfl⟩

/-- Witness for Claim C1: a fresh solver over dictionary [abcde] given
word fffff with response Y---- hits the Unsatisfiable case, and the three
snapshotted components come back unchanged. -/
theorem handle_response_rollback_witness :
    (handle_response (initSolver [['a', 'b', 'c', 'd', 'e']])
        ['f', 'f', 'f', 'f', 'f'] ['Y', '-', '-', '-', '-']).1.possible =
      (initSolver [['a', 'b', 'c', 'd', 'e']]).possible ∧
    (handle_response (initSolver [['a', 'b', 'c', 'd', 'e']])
        ['f', 'f', 'f', 'f', 'f'] ['Y', '-', '-', '-', '-']).1.known_letters =
      (initSolver [['a', 'b', 'c', 'd', 'e']]).known_letters ∧
    (handle_response (initSolver [['a', 'b', 'c', 'd', 'e']])
        ['f', 'f', 'f', 'f', 'f'] ['Y', '-', '-', '-', '-']).1.letters =
      (initSolver [['a', 'b', 'c', 'd', 'e']]).letters :=
  handle_response_rollback (initSolver [['a', 'b', 'c', 'd', 'e']])
    ['f', 'f', 'f', 'f', 'f'] ['Y', '-', '-', '-', '-'] (by decide)

/-- Claim C8: handle_response reports a malformed word or response
exactly when the lowercased word is not five ASCII lowercase letters or
the uppercased response is not five symbols over G, Y, -; in that case
the state is returned untouched (no rollback happened or was needed). -/
theorem handle_response_malformed (s : SolverState) (w r : List Char) :
    (((handle_response s w r).2 = some WErr.invalidWord ∨
      (handle_response s w r).2 = some WErr.invalidResponse) ↔
      ¬((w.map Char.toLower).length = 5 ∧
        (∀ c ∈ w.map Char.toLower, c ∈ asciiLowercase) ∧
        (r.map Char.toUpper).length = 5 ∧
        (∀ x ∈ r.map Char.toUpper, x ∈ ['G', 'Y', '-']))) ∧
    (((handle_response s w r).2 = some WErr.invalidWord ∨
      (handle_response s w r).2 = some WErr.invalidResponse) →
      (handle_response s w r).1 = s) := by
  rcases process_response_cases s w r with ⟨hval, hst, herr⟩ | ⟨hval, herr⟩
  · rcases herr with he | he
    · have h1 : (handle_response s w r).2 = some WErr.invalidWord := by
        simp only [handle_response, he]
      have h2 : (handle_response s w r).1 = s := by
        simp only [handle_response, he]
        exact hst
      exact ⟨⟨fun _ => hval, fun _ => Or.inl h1⟩, fun _ => h2⟩
    · have h1 : (handle_response s w r).2 = some WErr.invalidResponse := by
        simp only [handle_response, he]
      have h2 : (handle_response s w r).1 = s := by
        simp only [handle_response, he]
        exact hst
      exact ⟨⟨fun _ => hval, fun _ => Or.inr h1⟩, fun _ => h2⟩
  · have h2 : (handle_response s w r).2 = none ∨
        (handle_response s w r).2 = some WErr.invalidSolverState := by
      rcases herr with he | he
      · rcases (update_possible_words_err (process_response s w r).1).2 with hu | hu
        · left
          simp only [handle_response, he, hu]
        · right
          simp only [handle_response, he, hu]
      · right
        simp only [handle_response, he]
    have hnm : ¬((handle_response s w r).2 = some WErr.invalidWord ∨
        (handle_response s w r).2 = some WErr.invalidResponse) := by
      rcases h2 with h' | h' <;> rw [h'] <;> rintro (hm | hm) <;> simp at hm
    exact ⟨⟨fun hm => absurd hm hnm, fun hnv => absurd hval hnv⟩,
      fun hm => absurd hm hnm⟩

/-- Witness for Claim C8: a one-letter word is rejected as malformed and
the state comes back equal to the input state. -/
theorem handle_response_malformed_witness :
    (handle_response (initSolver [['a', 'b', 'c', 'd', 'e']]) ['a']
        ['G', 'G', 'G', 'G', 'G']).1 = initSolver [['a', 'b', 'c', 'd', 'e']] :=
  (handle_response_malformed (initSolver [['a', 'b', 'c', 'd', 'e']]) ['a']
    ['G', 'G', 'G', 'G', 'G']).2 (Or.inl (by decide))

/-- Claim C9: the snapshot covers only the possible words, the board and
the letter table — restore_state leaves known_non_letters untouched, and
on a concrete Unsatisfiable round (every position non-EXACT) the
known_non_letters lists keep the entries appended by the failed
transaction. -/
theorem restore_state_skips_known_non_letters :
    (∀ (t : SolverState) (b : Backup),
      (restore_state t b).known_non_letters = t.known_non_letters) ∧
    (handle_response (initSolver [['a', 'b', 'c', 'd', 'e']])
        ['f', 'f', 'f', 'f', 'f'] ['Y', '-', '-', '-', '-']).2 =
      some WErr.invalidSolverState ∧
    (handle_response (initSolver [['a', 'b', 'c', 'd', 'e']])
        ['f', 'f', 'f', 'f', 'f'] ['Y', '-', '-', '-', '-']).1.known_non_letters ≠
      (initSolver [['a', 'b', 'c', 'd', 'e']]).known_non_letters :=
  ⟨fun _ _ => rfl, by decide, by decide⟩

/-- Claim C4: an accepted feedback round keeps the possible-word set a
sublist (hence a subset of non-increasing size) of the previous one, and
never leaves it empty. -/
theorem handle_response_monotone (s : SolverState) (w r : List Char)
    (hne : s.possible ≠ []) (h : (handle_response s w r).2 = none) :
    (handle_response s w r).1.possible.Sublist s.possible ∧
    (handle_response s w r).1.possible ⊆ s.possible ∧
    (handle_response s w r).1.possible.length ≤ s.possible.length ∧
    (handle_response s w r).1.possible ≠ [] := by
  rcases hpr : (process_response s w r).2 with _ | e
  · rcases hupw : (update_possible_words (process_response s w r).1).2 with _ | e2
    · have hres : (handle_response s w r).1 =
          update_letter_freq (update_possible_words (process_response s w r).1).1 := by
        simp only [handle_response, hpr, hupw]
      have hposs : (handle_response s w r).1.possible =
          (process_response s w r).1.possible.filter
            (fun x => wordPasses (process_response s w r).1.letters x) := by
        rw [hres]
        show (update_possible_words (process_response s w r).1).1.possible = _
        exact update_possible_words_possible _
      have hframe := (process_response_frame s w r).1
      have hsub : (handle_response s w r).1.possible.Sublist s.possible := by
        rw [hposs, ← hframe]
        exact List.filter_sublist _
      have hnonempty : (handle_response s w r).1.possible ≠ [] := by
        rw [hposs]
        exact ((update_possible_words_err (process_response s w r).1).1).mp hupw
      exact ⟨hsub, hsub.subset, hsub.length_le, hnonempty⟩
    · cases e2 <;> simp only [handle_response, hpr, hupw] at h <;> simp at h
  · cases e <;> simp only [handle_response, hpr] at h <;> simp at h

/-- Witness for Claim C4 on a one-word dictionary and an all-green round. -/
theorem handle_response_monotone_witness :
    (handle_response (initSolver [['a', 'b', 'c', 'd', 'e']])
        ['a', 'b', 'c', 'd', 'e'] ['G', 'G', 'G', 'G', 'G']).1.possible.Sublist
      (initSolver [['a', 'b', 'c', 'd', 'e']]).possible ∧
    (handle_response (initSolver [['a', 'b', 'c', 'd', 'e']])
        ['a', 'b', 'c', 'd', 'e'] ['G', 'G', 'G', 'G', 'G']).1.possible ⊆
      (initSolver [['a', 'b', 'c', 'd', 'e']]).possible ∧
    (handle_response (initSolver [['a', 'b', 'c', 'd', 'e']])
        ['a', 'b', 'c', 'd', 'e'] ['G', 'G', 'G', 'G', 'G']).1.possible.length ≤
      (initSolver [['a', 'b', 'c', 'd', 'e']]).possible.length ∧
    (handle_response (initSolver [['a', 'b', 'c', 'd', 'e']])
        ['a', 'b', 'c', 'd', 'e'] ['G', 'G', 'G', 'G', 'G']).1.possible ≠ [] :=
  handle_response_monotone (initSolver [['a', 'b', 'c', 'd', 'e']])
    ['a', 'b', 'c', 'd', 'e'] ['G', 'G', 'G', 'G', 'G'] (by decide) (by decide)

/-- Claim C10: update_letter_freq divides by the possible-word count with
no guard; when the possible set is nonempty, the denominator is nonzero
and every lowercase letter's recomputed freq lies in [0, 1]. -/
theorem update_letter_freq_bounds (s : SolverState) (c : Char)
    (hne : s.possible ≠ []) (hc : c ∈ asciiLowercase) :
    ((s.possible.length : Rat) ≠ 0) ∧
    0 ≤ ((update_letter_freq s).letters c).freq ∧
    ((update_letter_freq s).letters c).freq ≤ 1 := by
  have hlen : 0 < s.possible.length := List.length_pos.mpr hne
  have hlenQ : (0 : Rat) < ((s.possible.length : Nat) : Rat) := by
    exact_mod_cast hlen
  refine ⟨ne_of_gt hlenQ, ?_, ?_⟩
  · rw [update_letter_freq_letters, if_pos hc]
    show 0 ≤ freqFor s.possible (s.letters c) c
    rw [freqFor]
    exact div_nonneg (by positivity) (le_of_lt hlenQ)
  · rw [update_letter_freq_letters, if_pos hc]
    show freqFor s.possible (s.letters c) c ≤ 1
    rw [freqFor, div_le_one hlenQ]
    exact_mod_cast List.countP_le_length _

/-- Witness for Claim C10 at the letter a over a one-word dictionary. -/
theorem update_letter_freq_bounds_witness :
    (((initSolver [['a', 'b', 'c', 'd', 'e']]).possible.length : Rat) ≠ 0) ∧
    0 ≤ ((update_letter_freq (initSolver [['a', 'b', 'c', 'd', 'e']])).letters 'a').freq ∧
    ((update_letter_freq (initSolver [['a', 'b', 'c', 'd', 'e']])).letters 'a').freq ≤ 1 :=
  update_letter_freq_bounds (initSolver [['a', 'b', 'c', 'd', 'e']]) 'a'
    (by decide) (by decide)

theorem update_letter_freq_frame (t : SolverState) (c : Char) :
    ((update_letter_freq t).letters c).exact_count = (t.letters c).exact_count ∧
    ((update_letter_freq t).letters c).count = (t.letters c).count ∧
    ((update_letter_freq t).letters c).appears_at = (t.letters c).appears_at ∧
    ((update_letter_freq t).letters c).does_not_appear_at =
      (t.letters c).does_not_appear_at := by
  rw [update_letter_freq_letters]
  split <;> exact ⟨rfl, rfl, rfl, rfl⟩

theorem update_possible_words_letters (t : SolverState) (c : Char) :
    ((update_possible_words t).1.letters c).exact_count =
      (t.letters c).exact_count ∧
    (t.letters c).count ≤ ((update_possible_words t).1.letters c).count := by
  simp only [update_possible_words]
  split
  · exact ⟨rfl, le_refl _⟩
  · split
    · have hf := (inferencePass_frame
        { t with possible := t.possible.filter (fun w => wordPasses t.letters w) }).2.2.2 c
      exact ⟨hf.1, hf.2⟩
    · exact ⟨rfl, le_refl _⟩

theorem process_response_letters (s : SolverState) (w r : List Char) (c : Char) :
    (c ∉ w.map Char.toLower →
      ((process_response s w r).1.letters c).exact_count =
        (s.letters c).exact_count) ∧
    (s.letters c).count ≤ ((process_response s w r).1.letters c).count := by
  simp only [process_response]
  split
  · exact ⟨fun _ => rfl, le_refl _⟩
  · split
    · exact ⟨fun _ => rfl, le_refl _⟩
    · split
      · exact ⟨fun _ => rfl, le_refl _⟩
      · split
        · exact ⟨fun _ => rfl, le_refl _⟩
        · have hpp := processPositions_frame
            ((w.map Char.toLower).zip (r.map Char.toUpper)) s 0
          split
          · exact ⟨fun _ => (hpp.2.2 c).2, le_of_eq (hpp.2.2 c).1.symm⟩
          · rw [processCounts_letters]
            split
            · rename_i hmem
              rw [(dedupFirst_mem c (w.map Char.toLower))] at hmem
              refine ⟨fun hnot => absurd hmem hnot, ?_⟩
              calc (s.letters c).count
                  = ((processPositions s 0 ((w.map Char.toLower).zip
                      (r.map Char.toUpper))).1.letters c).count := (hpp.2.2 c).1.symm
                _ ≤ _ := Nat.le_max_left _ _
            · exact ⟨fun _ => (hpp.2.2 c).2, le_of_eq (hpp.2.2 c).1.symm⟩

/-- Counterexample to Claim C3: after an accepted round fixing the exact
count of the letter e, a second accepted round whose guess contains e with
no grey response resets exact_count[e] to false (line
self.letters[c]["exact_count"] = grey > 0 assigns instead of accumulating). -/
theorem exact_count_not_sticky_counterexample :
    (handle_response (initSolver [['e', 'a', 'b', 'c', 'd'], ['e', 'a', 'b', 'c', 'f']])
        ['e', 'e', 'z', 'z', 'z'] ['G', '-', '-', '-', '-']).2 = none ∧
    ((handle_response (initSolver [['e', 'a', 'b', 'c', 'd'], ['e', 'a', 'b', 'c', 'f']])
        ['e', 'e', 'z', 'z', 'z'] ['G', '-', '-', '-', '-']).1.letters 'e').exact_count
      = true ∧
    (handle_response ((handle_response
        (initSolver [['e', 'a', 'b', 'c', 'd'], ['e', 'a', 'b', 'c', 'f']])
        ['e', 'e', 'z', 'z', 'z'] ['G', '-', '-', '-', '-']).1)
        ['e', 'a', 'b', 'c', 'd'] ['G', 'G', 'G', 'G', '-']).2 = none ∧
    ((handle_response ((handle_response
        (initSolver [['e', 'a', 'b', 'c', 'd'], ['e', 'a', 'b', 'c', 'f']])
        ['e', 'e', 'z', 'z', 'z'] ['G', '-', '-', '-', '-']).1)
        ['e', 'a', 'b', 'c', 'd'] ['G', 'G', 'G', 'G', '-']).1.letters 'e').exact_count
      = false := by
  decide

/-- Claim C3 as amended: across an accepted round, exact_count[c] is
unchanged (so in particular stays true) whenever the lowercased guess does
not contain c — a guess containing c reassigns it from that round's grey
count — and count[c] never decreases. -/
theorem handle_response_exact_count_amended (s : SolverState) (w r : List Char)
    (c : Char) (h : (handle_response s w r).2 = none) :
    (c ∉ w.map Char.toLower →
      ((handle_response s w r).1.letters c).exact_count =
        (s.letters c).exact_count) ∧
    (s.letters c).count ≤ ((handle_response s w r).1.letters c).count := by
  rcases hpr : (process_response s w r).2 with _ | e
  · rcases hupw : (update_possible_words (process_response s w r).1).2 with _ | e2
    · have hres : (handle_response s w r).1 =
          update_letter_freq (update_possible_words (process_response s w r).1).1 := by
        simp only [handle_response, hpr, hupw]
      rw [hres]
      have h1 := update_letter_freq_frame
        (update_possible_words (process_response s w r).1).1 c
      have h2 := update_possible_words_letters (process_response s w r).1 c
      have h3 := process_response_letters s w r c
      constructor
      · intro hnot
        rw [h1.1, h2.1, h3.1 hnot]
      · calc (s.letters c).count ≤ _ := h3.2
          _ ≤ _ := h2.2
          _ = _ := (h1.2.1).symm
    · cases e2 <;> simp only [handle_response, hpr, hupw] at h <;> simp at h
  · cases e <;> simp only [handle_response, hpr] at h <;> simp at h

/-- Witness for the amended Claim C3: an accepted all-green round and the
letter z, which the guess does not contain. -/
theorem handle_response_exact_count_amended_witness :
    ('z' ∉ (['a', 'b', 'c', 'd', 'e'] : List Char).map Char.toLower →
      ((handle_response (initSolver [['a', 'b', 'c', 'd', 'e']])
          ['a', 'b', 'c', 'd', 'e'] ['G', 'G', 'G', 'G', 'G']).1.letters 'z').exact_count =
        ((initSolver [['a', 'b', 'c', 'd', 'e']]).letters 'z').exact_count) ∧
    ((initSolver [['a', 'b', 'c', 'd', 'e']]).letters 'z').count ≤
      ((handle_response (initSolver [['a', 'b', 'c', 'd', 'e']])
          ['a', 'b', 'c', 'd', 'e'] ['G', 'G', 'G', 'G', 'G']).1.letters 'z').count :=
  handle_response_exact_count_amended (initSolver [['a', 'b', 'c', 'd', 'e']])
    ['a', 'b', 'c', 'd', 'e'] ['G', 'G', 'G', 'G', 'G'] 'z' (by decide)

theorem foldl_best_spec (wfreq : Word → Rat) : ∀ (ws : List Word) (b : Word),
    (ws.foldl (fun best x => if wfreq best < wfreq x then x else best) b = b ∨
      ws.foldl (fun best x => if wfreq best < wfreq x then x else best) b ∈ ws) ∧
    wfreq b ≤
      wfreq (ws.foldl (fun best x => if wfreq best < wfreq x then x else best) b) ∧
    ∀ w ∈ ws, wfreq w ≤
      wfreq (ws.foldl (fun best x => if wfreq best < wfreq x then x else best) b) := by
  intro ws
  induction ws with
  | nil => intro b; exact ⟨Or.inl rfl, le_refl _, by simp⟩
  | cons x ws ih =>
    intro b
    rw [List.foldl_cons]
    by_cases hbx : wfreq b < wfreq x
    · rw [if_pos hbx]
      have h := ih x
      refine ⟨?_, ?_, ?_⟩
      · rcases h.1 with h' | h'
        · refine Or.inr ?_
          rw [h']
          exact List.mem_cons_self x ws
        · exact Or.inr (List.mem_cons_of_mem x h')
      · exact le_trans (le_of_lt hbx) h.2.1
      · intro w hw
        rcases List.mem_cons.mp hw with h' | h'
        · exact h' ▸ h.2.1
        · exact h.2.2 w h'
    · rw [if_neg hbx]
      have h := ih b
      refine ⟨?_, h.2.1, ?_⟩
      · rcases h.1 with h' | h'
        · exact Or.inl h'
        · exact Or.inr (List.mem_cons_of_mem x h')
      · intro w hw
        rcases List.mem_cons.mp hw with h' | h'
        · exact h' ▸ le_trans (le_of_not_lt hbx) h.2.1
        · exact h.2.2 w h'

theorem maxByFreq_spec (wfreq : Word → Rat) (l : List Word) (h : l ≠ []) :
    maxByFreq wfreq l ∈ l ∧ ∀ w ∈ l, wfreq w ≤ wfreq (maxByFreq wfreq l) := by
  cases l with
  | nil => exact absurd rfl h
  | cons x ws =>
    have hs := foldl_best_spec wfreq ws x
    constructor
    · rcases hs.1 with h' | h'
      · have hx : maxByFreq wfreq (x :: ws) = x := h'
        rw [hx]
        exact List.mem_cons_self x ws
      · exact List.mem_cons_of_mem x h'
    · intro w hw
      rcases List.mem_cons.mp hw with h' | h'
      · exact h' ▸ hs.2.1
      · exact hs.2.2 w h'

/-- Claim C6: generate_guess returns the single remaining possible word
when only one is left (any guess number), and otherwise, when the
remaining guesses cover the remaining possible words, returns the
possible word of highest external frequency (first maximal element, which
is a member and maximizes wfreq over the possible set). -/
theorem generate_guess_phases (wfreq : Word → Rat) (pick : List Word → Word)
    (s : SolverState) (guess_num : Nat) :
    (∀ w, s.possible = [w] → generate_guess wfreq pick s guess_num = w) ∧
    (s.possible.length ≠ 1 → s.possible ≠ [] →
      (s.possible.length : Int) ≤ (guess_limit : Int) - (guess_num : Int) →
      (generate_guess wfreq pick s guess_num = maxByFreq wfreq s.possible ∧
       generate_guess wfreq pick s guess_num ∈ s.possible ∧
       ∀ w ∈ s.possible,
         wfreq w ≤ wfreq (generate_guess wfreq pick s guess_num))) := by
  constructor
  · intro w hw
    simp [generate_guess, hw]
  · intro h1 h2 h3
    have heq : generate_guess wfreq pick s guess_num = maxByFreq wfreq s.possible := by
      rw [generate_guess, if_neg h1, if_pos h3]
    have hs := maxByFreq_spec wfreq s.possible h2
    exact ⟨heq, heq ▸ hs.1, fun w hw => heq ▸ hs.2 w hw⟩

/-- Witness for Claim C6: phase one on a singleton possible set, and phase
two membership on a two-word set with five guesses remaining. -/
theorem generate_guess_phases_witness :
    generate_guess (fun _ => 0) (fun l => l.headD [])
      (initSolver [['a', 'b', 'c', 'd', 'e']]) 3 = ['a', 'b', 'c', 'd', 'e'] ∧
    generate_guess (fun _ => 0) (fun l => l.headD [])
        (initSolver [['a', 'b', 'c', 'd', 'e'], ['f', 'g', 'h', 'i', 'j']]) 1 ∈
      (initSolver [['a', 'b', 'c', 'd', 'e'], ['f', 'g', 'h', 'i', 'j']]).possible :=
  ⟨(generate_guess_phases (fun _ => 0) (fun l => l.headD [])
      (initSolver [['a', 'b', 'c', 'd', 'e']]) 3).1 ['a', 'b', 'c', 'd', 'e']
      (by decide),
   ((generate_guess_phases (fun _ => 0) (fun l => l.headD [])
      (initSolver [['a', 'b', 'c', 'd', 'e'], ['f', 'g', 'h', 'i', 'j']]) 1).2
      (by decide) (by decide) (by decide)).2.1⟩

theorem getD_set_ne (v d : Option Char) : ∀ (l : List (Option Char)) (i j : Nat),
    i ≠ j → (l.set i v).getD j d = l.getD j d := by
  intro l
  induction l with
  | nil => intro i j _; simp
  | cons x xs ih =>
    intro i j hij
    cases i with
    | zero =>
      cases j with
      | zero => exact absurd rfl hij
      | succ j => simp
    | succ i =>
      cases j with
      | zero => simp
      | succ j => simpa using ih i j (by omega)

theorem getD_set_self (v d : Option Char) : ∀ (l : List (Option Char)) (i : Nat),
    i < l.length → (l.set i v).getD i d = v := by
  intro l
  induction l with
  | nil => intro i h; simp at h
  | cons x xs ih =>
    intro i h
    cases i with
    | zero => simp
    | succ i =>
      simp only [List.length_cons, Nat.succ_lt_succ_iff] at h
      simpa using ih i h

theorem count_eq_filter_range (c : Char) : ∀ w : Word,
    ((List.range w.length).filter (fun i => decide (w.getD i ' ' = c))).length =
      w.count c := by
  intro w
  induction w with
  | nil => simp
  | cons x xs ih =>
    rw [List.length_cons, List.range_succ_eq_map]
    rw [List.filter_cons]
    have hmap : (List.filter (fun i => decide ((x :: xs).getD i ' ' = c))
        ((List.range xs.length).map Nat.succ)).length =
        (List.filter (fun i => decide (xs.getD i ' ' = c))
          (List.range xs.length)).length := by
      rw [List.filter_map]
      rw [List.length_map]
      congr 1
    by_cases hx : x = c
    · rw [if_pos (by simp [hx])]
      rw [List.length_cons, hmap, ih, List.count_cons]
      simp [hx]
    · rw [if_neg (by simp [hx])]
      rw [hmap, ih, List.count_cons]
      simp [hx]

theorem length_le_count (w : Word) (c : Char) (l : List Nat) (hnd : l.Nodup)
    (hmem : ∀ i ∈ l, w.getD i ' ' = c) (hc : c ≠ ' ') : l.length ≤ w.count c := by
  have hsub : l ⊆ (List.range w.length).filter (fun i => decide (w.getD i ' ' = c)) := by
    intro i hi
    have hgi := hmem i hi
    have hilt : i < w.length := by
      by_contra hge
      rw [List.getD_eq_default _ _ (by omega)] at hgi
      exact hc hgi.symm
    rw [List.mem_filter, List.mem_range]
    exact ⟨hilt, by simpa using hgi⟩
  have := (hnd.subperm hsub).length_le
  calc l.length ≤ _ := this
    _ = w.count c := count_eq_filter_range c w

theorem letterOk_iff (info : LetterInfo) (c : Char) (w : Word) :
    letterOk info c w = true ↔
      ((∀ i ∈ info.appears_at, w.getD i ' ' = c) ∧
       (∀ i ∈ info.does_not_appear_at, w.getD i ' ' ≠ c) ∧
       (info.exact_count = true → w.count c = info.count) ∧
       (info.exact_count = false → info.count ≠ 0 → info.count ≤ w.count c)) := by
  rw [letterOk]
  cases hex : info.exact_count <;> by_cases h0 : info.count = 0 <;>
    simp [hex, h0, List.all_eq_true] <;> tauto

theorem wordPasses_iff (L : Char → LetterInfo) (w : Word) :
    wordPasses L w = true ↔ ∀ c ∈ asciiLowercase, letterOk (L c) c w = true := by
  rw [wordPasses]
  exact List.all_eq_true

/-- The consistency invariant under which the candidate-filter
recomputation is idempotent: every possible word passes the current
filters, the board has its five slots, no letter lists a board position
twice, and every listed EXACT position is bound on the board to that
letter.  All states reachable from initSolver through accepted rounds
satisfy it. -/
def goodState (t : SolverState) : Prop :=
  (∀ w ∈ t.possible, wordPasses t.letters w = true) ∧
  t.known_letters.length = 5 ∧
  (∀ c ∈ asciiLowercase, (t.letters c).appears_at.Nodup) ∧
  (∀ c ∈ asciiLowercase, ∀ i ∈ (t.letters c).appears_at,
    t.known_letters.getD i none = some c)

theorem space_not_lower : (' ' : Char) ∉ asciiLowercase := by decide

theorem inferenceStep_good (t : SolverState) (i : Nat) (hi : i < 5)
    (hg : goodState t) : goodState (inferenceStep t i) := by
  obtain ⟨hG, hlen, hnd, hbind⟩ := hg
  simp only [inferenceStep]
  split
  · exact ⟨hG, hlen, hnd, hbind⟩
  · rename_i heq
    split
    · rename_i hall
      have hallP : ∀ w ∈ t.possible,
          w.getD i ' ' = (t.possible.headD []).getD i ' ' := by
        intro w hw
        exact of_decide_eq_true (List.all_eq_true.mp hall w hw)
      have hnotmem : ∀ c ∈ asciiLowercase, i ∉ (t.letters c).appears_at := by
        intro c hc hmem
        have hb := hbind c hc i hmem
        rw [heq] at hb
        exact Option.noConfusion hb
      refine ⟨?_, ?_, ?_, ?_⟩
      · intro w hw
        rw [wordPasses_iff]
        intro c hc
        have hold := (wordPasses_iff t.letters w).mp (hG w hw) c hc
        simp only [updateLetter]
        by_cases hcd : c = (t.possible.headD []).getD i ' '
        · rw [if_pos hcd]
          rw [letterOk_iff] at hold ⊢
          obtain ⟨hA, hB, hE, hI⟩ := hold
          have hcne : c ≠ ' ' := fun hsp => space_not_lower (hsp ▸ hc)
          have hmemall : ∀ j ∈ (t.letters c).appears_at ++ [i],
              w.getD j ' ' = c := by
            intro j hj
            rcases List.mem_append.mp hj with hjo | hjs
            · exact hA j hjo
            · rw [List.mem_singleton] at hjs
              subst hjs
              exact (hallP w hw).trans hcd.symm
          have hnd' : ((t.letters c).appears_at ++ [i]).Nodup := by
            simp [List.nodup_append, hnd c hc, hnotmem c hc]
          have hle : ((t.letters c).appears_at ++ [i]).length ≤ w.count c :=
            length_le_count w c _ hnd' hmemall hcne
          refine ⟨hmemall, hB, ?_, ?_⟩
          · intro hexT
            have h1 := hE hexT
            show w.count c = max (t.letters c).count _
            rw [Nat.max_eq_left (by omega)]
            exact h1
          · intro hexF hne0
            show max (t.letters c).count _ ≤ w.count c
            refine Nat.max_le.mpr ⟨?_, hle⟩
            by_cases h0 : (t.letters c).count = 0
            · omega
            · exact hI hexF h0
        · rw [if_neg hcd]
          exact hold
      · show (t.known_letters.set i _).length = 5
        rw [List.length_set]
        exact hlen
      · intro c hc
        show ((updateLetter t.letters _ _ c).appears_at).Nodup
        simp only [updateLetter]
        by_cases hcd : c = (t.possible.headD []).getD i ' '
        · rw [if_pos hcd]
          simp [List.nodup_append, hnd c hc, hnotmem c hc]
        · rw [if_neg hcd]
          exact hnd c hc
      · intro c hc j hj
        simp only [updateLetter] at hj
        by_cases hcd : c = (t.possible.headD []).getD i ' '
        · rw [if_pos hcd] at hj
          rcases List.mem_append.mp hj with hjo | hjs
          · have hb := hbind c hc j hjo
            have hji : i ≠ j := by
              intro h
              rw [← h, heq] at hb
              exact Option.noConfusion hb
            show (t.known_letters.set i _).getD j none = some c
            rw [getD_set_ne _ _ _ i j hji]
            exact hb
          · rw [List.mem_singleton] at hjs
            subst hjs
            show (t.known_letters.set j _).getD j none = some c
            rw [getD_set_self _ _ _ j (by omega)]
            rw [hcd]
        · rw [if_neg hcd] at hj
          have hb := hbind c hc j hj
          have hji : i ≠ j := by
            intro h
            rw [← h, heq] at hb
            exact Option.noConfusion hb
          show (t.known_letters.set i _).getD j none = some c
          rw [getD_set_ne _ _ _ i j hji]
          exact hb
    · exact ⟨hG, hlen, hnd, hbind⟩

theorem inferencePass_good (t : SolverState) (hg : goodState t) :
    goodState (inferencePass t) := by
  have main : ∀ (l : List Nat), (∀ i ∈ l, i < 5) → ∀ t, goodState t →
      goodState (l.foldl inferenceStep t) := by
    intro l
    induction l with
    | nil => intro _ t hg; exact hg
    | cons j l ih =>
      intro hmem t hg
      rw [List.foldl_cons]
      exact ih (fun i hi => hmem i (List.mem_cons_of_mem j hi))
        (inferenceStep t j) (inferenceStep_good t j (hmem j (List.mem_cons_self j l)) hg)
  exact main (List.range 5) (fun i hi => List.mem_range.mp hi) t hg

/-- A state exercising the duplicate-position weakness: the letter a
already lists board position 0 while the board slot is still unbound. -/
def c7State : SolverState :=
  { words := [['a', 'a', 'b', 'c', 'd'], ['a', 'a', 'x', 'y', 'z']],
    possible := [['a', 'a', 'b', 'c', 'd'], ['a', 'a', 'x', 'y', 'z']],
    known_letters := List.replicate 5 none,
    known_non_letters := List.replicate 5 [],
    letters := fun c => if c = 'a' then
      { appears_at := [0], does_not_appear_at := [], exact_count := false,
        count := 0, freq := 0 }
      else initLetterInfo }

/-- Counterexample to Claim C7: on a state with a nonempty possible set,
the first recomputation succeeds (two words survive, and the inference
pass appends position 0 to the a record a second time, pushing count to
3), while the second recomputation filters everything out — the
possible-word sets after the two runs differ. -/
theorem update_possible_words_not_idempotent :
    c7State.possible ≠ [] ∧
    (update_possible_words c7State).2 = none ∧
    (update_possible_words (update_possible_words c7State).1).1.possible ≠
      (update_possible_words c7State).1.possible := by
  decide

/-- Claim C7 as amended: recomputing the possible-word set twice in a row
yields the same set, for every state with a nonempty possible-word set
whose letter records list each board position at most once and whose
listed EXACT positions are bound on the board to their letter (as holds
for every state reachable through accepted rounds). -/
theorem update_possible_words_idempotent_amended (s : SolverState)
    (hne : s.possible ≠ [])
    (hlen : s.known_letters.length = 5)
    (hnd : ∀ c ∈ asciiLowercase, (s.letters c).appears_at.Nodup)
    (hbind : ∀ c ∈ asciiLowercase, ∀ i ∈ (s.letters c).appears_at,
      s.known_letters.getD i none = some c) :
    (update_possible_words (update_possible_words s).1).1.possible =
      (update_possible_words s).1.possible := by
  have hposs1 : (update_possible_words s).1.possible =
      s.possible.filter (fun w => wordPasses s.letters w) :=
    update_possible_words_possible s
  have hposs2 : (update_possible_words (update_possible_words s).1).1.possible =
      (update_possible_words s).1.possible.filter
        (fun w => wordPasses (update_possible_words s).1.letters w) :=
    update_possible_words_possible _
  rw [hposs2, hposs1]
  apply List.filter_eq_self.mpr
  intro w hw
  have hw0 : wordPasses s.letters w = true := List.of_mem_filter hw
  simp only [update_possible_words]
  split
  · exact hw0
  · split
    · have hg1 : goodState
          { s with possible := s.possible.filter (fun w => wordPasses s.letters w) } :=
        ⟨fun x hx => List.of_mem_filter hx, hlen, hnd, hbind⟩
      have hg2 := inferencePass_good _ hg1
      have hpos : (inferencePass
          { s with possible := s.possible.filter (fun w => wordPasses s.letters w) }).possible =
          s.possible.filter (fun w => wordPasses s.letters w) :=
        (inferencePass_frame _).1
      exact hg2.1 w (by rw [hpos]; exact hw)
    · exact hw0

/-- Witness for the amended Claim C7 on a fresh two-word solver. -/
theorem update_possible_words_idempotent_amended_witness :
    (update_possible_words (update_possible_words
        (initSolver [['a', 'b', 'c', 'd', 'e'], ['f', 'g', 'h', 'i', 'j']])).1).1.possible =
      (update_possible_words
        (initSolver [['a', 'b', 'c', 'd', 'e'], ['f', 'g', 'h', 'i', 'j']])).1.possible :=
  update_possible_words_idempotent_amended
    (initSolver [['a', 'b', 'c', 'd', 'e'], ['f', 'g', 'h', 'i', 'j']])
    (by decide) (by decide) (by decide) (by decide)

theorem toLower_of_lower : ∀ c ∈ asciiLowercase, Char.toLower c = c := by decide

theorem map_toLower_id : ∀ l : List Char, (∀ c ∈ l, c ∈ asciiLowercase) →
    l.map Char.toLower = l := by
  intro l
  induction l with
  | nil => intro _; rfl
  | cons x xs ih =>
    intro h
    rw [List.map_cons, toLower_of_lower x (h x (List.mem_cons_self x xs)),
      ih (fun c hc => h c (List.mem_cons_of_mem x hc))]

theorem replicate_getD_none : ∀ (n j : Nat),
    (List.replicate n (none : Option Char)).getD j none = none := by
  intro n
  induction n with
  | zero => intro j; simp
  | succ n ih =>
    intro j
    cases j with
    | zero => simp [List.replicate_succ]
    | succ j => simpa [List.replicate_succ] using ih j

theorem countResp_allG (c : Char) : ∀ (L R : List Char), (∀ x ∈ R, x = 'G') →
    L.length = R.length →
    countResp L R c 'G' = L.count c ∧ countResp L R c 'Y' = 0 ∧
    countResp L R c '-' = 0 := by
  intro L
  induction L with
  | nil =>
    intro R _ hlen
    cases R with
    | nil => simp [countResp]
    | cons r R => simp at hlen
  | cons x xs ih =>
    intro R hG hlen
    cases R with
    | nil => simp at hlen
    | cons r R =>
      simp only [List.length_cons, Nat.succ.injEq] at hlen
      have hr : r = 'G' := hG r (List.mem_cons_self r R)
      subst hr
      have hrest := ih R (fun y hy => hG y (List.mem_cons_of_mem _ hy)) hlen
      simp only [countResp, List.zip_cons_cons, List.countP_cons] at hrest ⊢
      refine ⟨?_, ?_, ?_⟩
      · rw [List.count_cons]
        by_cases hx : x = c <;> simp [hx, hrest.1, countResp] <;> omega
      · simpa [countResp] using hrest.2.1
      · simpa [countResp] using hrest.2.2

theorem ext_from_getD (v w : Word) (hlen : v.length = w.length)
    (h : ∀ i, i < v.length → v.getD i ' ' = w.getD i ' ') : v = w := by
  refine List.ext_getElem hlen (fun i h1 h2 => ?_)
  have := h i h1
  rwa [List.getD_eq_getElem v ' ' h1, List.getD_eq_getElem w ' ' h2] at this

theorem filter_eq_singleton (p : Word → Bool) : ∀ (l : List Word) (a : Word),
    l.Nodup → a ∈ l → (∀ w ∈ l, (p w = true ↔ w = a)) → l.filter p = [a] := by
  intro l
  induction l with
  | nil => intro a _ ha _; simp at ha
  | cons x xs ih =>
    intro a hnd ha hp
    rcases List.nodup_cons.mp hnd with ⟨hx, hnd'⟩
    by_cases hxa : x = a
    · subst hxa
      rw [List.filter_cons,
        if_pos (by rw [(hp x (List.mem_cons_self x xs))])]
      have hempty : xs.filter p = [] := by
        rw [List.filter_eq_nil_iff]
        intro w hw
        rw [hp w (List.mem_cons_of_mem x hw)]
        intro heq
        exact hx (heq ▸ hw)
      rw [hempty]
    · have ha' : a ∈ xs := by
        rcases List.mem_cons.mp ha with h' | h'
        · exact absurd h'.symm hxa
        · exact h'
      rw [List.filter_cons, if_neg (by
        rw [(hp x (List.mem_cons_self x xs))]
        simpa using hxa)]
      exact ih a hnd' ha' (fun w hw => hp w (List.mem_cons_of_mem x hw))

theorem initSolver_possible (words : List Word) :
    (initSolver words).possible = words := rfl

theorem initSolver_known (words : List Word) :
    (initSolver words).known_letters = List.replicate 5 none := rfl

theorem initSolver_letters (words : List Word) (c : Char) :
    ((initSolver words).letters c).appears_at = [] ∧
    ((initSolver words).letters c).does_not_appear_at = [] ∧
    ((initSolver words).letters c).exact_count = false ∧
    ((initSolver words).letters c).count = 0 := by
  have h := update_letter_freq_letters
    { words := words, possible := words,
      known_letters := List.replicate 5 none,
      known_non_letters := List.replicate 5 [],
      letters := fun _ => initLetterInfo } c
  rw [initSolver, h]
  split <;> exact ⟨rfl, rfl, rfl, rfl⟩

theorem processPositions_allG : ∀ (L : List Char) (t : SolverState) (i : Nat),
    (∀ j, i ≤ j → t.known_letters.getD j none = none) →
    (processPositions t i (L.zip (List.replicate L.length 'G'))).2 = none ∧
    (processPositions t i (L.zip (List.replicate L.length 'G'))).1.possible =
      t.possible ∧
    (∀ c, ((processPositions t i (L.zip (List.replicate L.length 'G'))).1.letters
        c).does_not_appear_at = (t.letters c).does_not_appear_at) ∧
    (∀ c x, (x ∈ ((processPositions t i (L.zip (List.replicate L.length 'G'))).1.letters
        c).appears_at ↔
      (x ∈ (t.letters c).appears_at ∨
        ∃ k, k < L.length ∧ x = i + k ∧ L.getD k ' ' = c))) := by
  intro L
  induction L with
  | nil =>
    intro t i _
    refine ⟨rfl, rfl, fun c => rfl, fun c x => ?_⟩
    simp [processPositions]
  | cons c0 L ih =>
    intro t i hnone
    rw [List.length_cons, List.replicate_succ, List.zip_cons_cons]
    have hstep : processPositions t i ((c0, 'G') :: L.zip (List.replicate L.length 'G')) =
        processPositions
          { t with known_letters := t.known_letters.set i (some c0),
                   letters := updateLetter t.letters c0
                     (fun info => { info with appears_at := info.appears_at ++ [i] }) }
          (i + 1) (L.zip (List.replicate L.length 'G')) := by
      simp only [processPositions]
      rw [if_pos trivial, hnone i (le_refl i)]
    rw [hstep]
    have hrec := ih
      { t with known_letters := t.known_letters.set i (some c0),
               letters := updateLetter t.letters c0
                 (fun info => { info with appears_at := info.appears_at ++ [i] }) }
      (i + 1)
      (by
        intro j hj
        show (t.known_letters.set i (some c0)).getD j none = none
        rw [getD_set_ne _ _ _ i j (by omega)]
        exact hnone j (by omega))
    refine ⟨hrec.1, hrec.2.1, fun c => ?_, fun c x => ?_⟩
    · rw [hrec.2.2.1 c]
      show (updateLetter t.letters c0 _ c).does_not_appear_at = _
      simp only [updateLetter]
      by_cases hcc : c = c0
      · rw [if_pos hcc]
      · rw [if_neg hcc]
    · rw [hrec.2.2.2 c x]
      have hup : (updateLetter t.letters c0
          (fun info => { info with appears_at := info.appears_at ++ [i] })
            c).appears_at =
          if c = c0 then (t.letters c).appears_at ++ [i]
          else (t.letters c).appears_at := by
        simp only [updateLetter]
        by_cases hcc : c = c0
        · rw [if_pos hcc, if_pos hcc]
        · rw [if_neg hcc, if_neg hcc]
      constructor
      · rintro (hx | ⟨k, hk, hxk, hLk⟩)
        · rw [hup] at hx
          by_cases hcc : c = c0
          · rw [if_pos hcc] at hx
            rcases List.mem_append.mp hx with hxo | hxs
            · exact Or.inl hxo
            · rw [List.mem_singleton] at hxs
              refine Or.inr ⟨0, by omega, by omega, ?_⟩
              rw [List.getD_cons_zero]
              exact hcc.symm
          · rw [if_neg hcc] at hx
            exact Or.inl hx
        · refine Or.inr ⟨k + 1, by omega, by omega, ?_⟩
          rw [List.getD_cons_succ]
          exact hLk
      · rintro (hx | ⟨k, hk, hxk, hLk⟩)
        · left
          rw [hup]
          by_cases hcc : c = c0
          · rw [if_pos hcc]
            exact List.mem_append_left _ hx
          · rw [if_neg hcc]
            exact hx
        · cases k with
          | zero =>
            left
            rw [List.getD_cons_zero] at hLk
            rw [hup, if_pos hLk.symm]
            refine List.mem_append_right _ ?_
            rw [List.mem_singleton]
            omega
          | succ k =>
            rw [List.getD_cons_succ] at hLk
            exact Or.inr ⟨k, by omega, by omega, hLk⟩

/-- The all-EXACT response string GGGGG. -/
def allGreen : List Char := ['G', 'G', 'G', 'G', 'G']

/-- The state reached by the mutation part of process_response when a
word S is graded all green on a fresh solver. -/
def allGState (dict : List Word) (S : Word) : SolverState :=
  processCounts (processPositions (initSolver dict) 0 (S.zip allGreen)).1 S allGreen

theorem allgreen_imp_eq (S G : Word) (hS5 : S.length = 5) (hG5 : G.length = 5)
    (hresp : (generate_response S G).2 = allGreen) : G = S := by
  have hlen : S.length = G.length := by omega
  have hp1 := respondPass1_len S G hlen
  have hGlit : ∀ i, i < 5 → (allGreen.getD i ' ' = 'G') := by decide
  simp only [generate_response] at hresp
  refine ext_from_getD G S (by omega) (fun i hi => ?_)
  have hi5 : i < 5 := by omega
  have h2 := respondPass2_G (respondPass1 S G).2 G (respondPass1 S G).1
    (by omega) i (by omega)
  have h1 := respondPass1_G S G hlen i (by omega)
  have hr : (respondPass2 (respondPass1 S G).1 G (respondPass1 S G).2).getD i ' ' =
      'G' := by
    rw [hresp]
    exact hGlit i hi5
  have := h1.mp (h2.mp hr)
  exact this.symm

theorem zip_allGreen (S : Word) (hS5 : S.length = 5) :
    S.zip allGreen = S.zip (List.replicate S.length 'G') := by
  rw [hS5]
  rfl

theorem allG_letters_facts (dict : List Word) (S : Word) (hS5 : S.length = 5) :
    (∀ c, ((allGState dict S).letters c).does_not_appear_at = []) ∧
    (∀ c x, (x ∈ ((allGState dict S).letters c).appears_at ↔
      ∃ k, k < 5 ∧ x = k ∧ S.getD k ' ' = c)) ∧
    (∀ c, ((allGState dict S).letters c).exact_count = false) ∧
    (∀ c, ((allGState dict S).letters c).count ≤ S.count c) ∧
    (∀ c, c ∈ S → ((allGState dict S).letters c).count = S.count c) := by
  have hnone : ∀ j, 0 ≤ j → (initSolver dict).known_letters.getD j none = none := by
    intro j _
    rw [initSolver_known]
    exact replicate_getD_none 5 j
  have hpp := processPositions_allG S (initSolver dict) 0 hnone
  rw [← zip_allGreen S hS5] at hpp
  have hppf := processPositions_frame (S.zip allGreen) (initSolver dict) 0
  have hcr := countResp_allG
  have hRG : ∀ x ∈ allGreen, x = 'G' := by decide
  have hRlen : S.length = allGreen.length := by
    rw [hS5]
    rfl
  refine ⟨?_, ?_, ?_, ?_, ?_⟩
  · intro c
    show ((processCounts _ S allGreen).letters c).does_not_appear_at = []
    rw [processCounts_letters]
    have hppd := hpp.2.2.1 c
    rw [(initSolver_letters dict c).2.1] at hppd
    split
    · exact hppd
    · exact hppd
  · intro c x
    show x ∈ ((processCounts _ S allGreen).letters c).appears_at ↔ _
    rw [processCounts_letters]
    have hppa := hpp.2.2.2 c x
    rw [(initSolver_letters dict c).1] at hppa
    have hiff : x ∈ ((processPositions (initSolver dict) 0
        (S.zip allGreen)).1.letters c).appears_at ↔
        ∃ k, k < 5 ∧ x = k ∧ S.getD k ' ' = c := by
      rw [hppa]
      constructor
      · rintro (hx | ⟨k, hk, hxk, hLk⟩)
        · simp at hx
        · exact ⟨k, by omega, by omega, hLk⟩
      · rintro ⟨k, hk, hxk, hLk⟩
        exact Or.inr ⟨k, by omega, by omega, hLk⟩
    split
    · exact hiff
    · exact hiff
  · intro c
    show ((processCounts _ S allGreen).letters c).exact_count = false
    rw [processCounts_letters]
    have hppe := (hppf.2.2 c).2
    rw [(initSolver_letters dict c).2.2.1] at hppe
    split
    · show decide (0 < countResp S allGreen c '-') = false
      rw [(hcr c S allGreen hRG hRlen).2.2]
      rfl
    · exact hppe
  · intro c
    show ((processCounts _ S allGreen).letters c).count ≤ S.count c
    rw [processCounts_letters]
    have hppc := (hppf.2.2 c).1
    rw [(initSolver_letters dict c).2.2.2] at hppc
    split
    · show max _ (countResp S allGreen c 'G' + countResp S allGreen c 'Y') ≤ _
      rw [(hcr c S allGreen hRG hRlen).1, (hcr c S allGreen hRG hRlen).2.1, hppc]
      omega
    · rw [hppc]
      omega
  · intro c hcS
    show ((processCounts _ S allGreen).letters c).count = S.count c
    rw [processCounts_letters]
    have hppc := (hppf.2.2 c).1
    rw [(initSolver_letters dict c).2.2.2] at hppc
    split
    · show max _ (countResp S allGreen c 'G' + countResp S allGreen c 'Y') = _
      rw [(hcr c S allGreen hRG hRlen).1, (hcr c S allGreen hRG hRlen).2.1, hppc]
      omega
    · rename_i hmem
      rw [dedupFirst_mem] at hmem
      exact absurd hcS hmem

theorem process_response_allG (dict : List Word) (S : Word)
    (hS5 : S.length = 5) (hSl : ∀ c ∈ S, c ∈ asciiLowercase) :
    process_response (initSolver dict) S allGreen = (allGState dict S, none) := by
  have hlow : S.map Char.toLower = S := map_toLower_id S hSl
  have hup : allGreen.map Char.toUpper = allGreen := by decide
  have hnone : ∀ j, 0 ≤ j → (initSolver dict).known_letters.getD j none = none := by
    intro j _
    rw [initSolver_known]
    exact replicate_getD_none 5 j
  have herr := (processPositions_allG S (initSolver dict) 0 hnone).1
  rw [← zip_allGreen S hS5] at herr
  have hany : ¬(S.any (fun c => !(decide (c ∈ asciiLowercase))) = true) := by
    intro h
    rcases List.any_eq_true.mp h with ⟨c, hc, hcb⟩
    simp only [Bool.not_eq_true', decide_eq_false_iff_not] at hcb
    exact hcb (hSl c hc)
  simp only [process_response]
  rw [hlow, hup]
  rw [if_neg (by omega)]
  rw [if_neg hany]
  rw [if_neg (by decide)]
  rw [if_neg (by decide)]
  simp only [herr]
  rfl

/-- Claim C5: when the oracle grades a guess all green (so the guess
equals the secret), processing that round on a fresh solver over a
duplicate-free dictionary of five-letter lowercase words containing the
secret narrows the possible-word set to exactly the secret. -/
theorem round_trip_single_word (dict : List Word) (S G : Word)
    (hwords : ∀ w ∈ dict, w.length = 5 ∧ ∀ c ∈ w, c ∈ asciiLowercase)
    (hnd : dict.Nodup) (hS : S ∈ dict) (hG5 : G.length = 5)
    (hresp : generate_response S G = (true, allGreen)) :
    (handle_response (initSolver dict) G allGreen).2 = none ∧
    (handle_response (initSolver dict) G allGreen).1.possible = [S] := by
  obtain ⟨hS5, hSl⟩ := hwords S hS
  have hGS : G = S := allgreen_imp_eq S G hS5 hG5 (by rw [hresp])
  rw [hGS]
  have hpr := process_response_allG dict S hS5 hSl
  have hpr2 : (process_response (initSolver dict) S allGreen).2 = none := by
    rw [hpr]
  have hpr1 : (process_response (initSolver dict) S allGreen).1 = allGState dict S := by
    rw [hpr]
  obtain ⟨f1, f2, f3, f4, f5⟩ := allG_letters_facts dict S hS5
  have hio : ∀ w ∈ dict, (wordPasses (allGState dict S).letters w = true ↔ w = S) := by
    intro w hw
    obtain ⟨hw5, hwl⟩ := hwords w hw
    constructor
    · intro hp
      refine ext_from_getD w S (by omega) (fun j hj => ?_)
      have hj5 : j < 5 := by omega
      have hcS : S.getD j ' ' ∈ S := by
        rw [List.getD_eq_getElem S ' ' (by omega)]
        exact List.getElem_mem _
      have hcl := hSl _ hcS
      have hA := ((letterOk_iff _ _ _).mp ((wordPasses_iff _ _).mp hp _ hcl)).1
      exact hA j ((f2 _ j).mpr ⟨j, hj5, rfl, rfl⟩)
    · intro heq
      subst heq
      rw [wordPasses_iff]
      intro c hc
      rw [letterOk_iff]
      refine ⟨?_, ?_, ?_, ?_⟩
      · intro x hx
        rcases (f2 c x).mp hx with ⟨k, hk, hxk, hLk⟩
        subst hxk
        exact hLk
      · intro x hx
        rw [f1 c] at hx
        simp at hx
      · intro hT
        rw [f3 c] at hT
        exact absurd hT (by simp)
      · intro _ _
        exact f4 c
  have hfilt : dict.filter (fun w => wordPasses (allGState dict S).letters w) = [S] :=
    filter_eq_singleton _ dict S hnd hS hio
  have hposs0 : (allGState dict S).possible = dict := by
    show (processPositions (initSolver dict) 0 (S.zip allGreen)).1.possible = dict
    rw [(processPositions_frame _ _ _).1]
    rfl
  have hposs1 : (update_possible_words
      (process_response (initSolver dict) S allGreen).1).1.possible = [S] := by
    rw [update_possible_words_possible, hpr1, hposs0, hfilt]
  have hupw2 : (update_possible_words
      (process_response (initSolver dict) S allGreen).1).2 = none := by
    refine ((update_possible_words_err _).1).mpr ?_
    rw [hpr1, hposs0, hfilt]
    simp
  constructor
  · simp only [handle_response, hpr2, hupw2]
  · have hres : (handle_response (initSolver dict) S allGreen).1 =
        update_letter_freq (update_possible_words
          (process_response (initSolver dict) S allGreen).1).1 := by
      simp only [handle_response, hpr2, hupw2]
    rw [hres]
    exact hposs1

/-- Witness for Claim C5 at a one-word dictionary with secret and guess
abcde. -/
theorem round_trip_single_word_witness :
    (handle_response (initSolver [['a', 'b', 'c', 'd', 'e']])
        ['a', 'b', 'c', 'd', 'e'] allGreen).2 = none ∧
    (handle_response (initSolver [['a', 'b', 'c', 'd', 'e']])
        ['a', 'b', 'c', 'd', 'e'] allGreen).1.possible = [['a', 'b', 'c', 'd', 'e']] :=
  round_trip_single_word [['a', 'b', 'c', 'd', 'e']] ['a', 'b', 'c', 'd', 'e']
    ['a', 'b', 'c', 'd', 'e'] (by decide) (by decide) (by decide) (by decide)
    (by decide)

end WordleSolver
